/-
Verification development for the LSASensitivity repository (src/sensitivity.py).

The six sensitivity estimators and the analysis driver of
`LSASensitivityAnalyzer` are embedded as pure Lean functions over exact
rationals (reals for the norm-based estimator), translated statement by
statement from the Python source.  numpy cost matrices become functions
`Fin n → Fin n → ℚ`; numpy's row/column operations become list operations
over `List.finRange`.
-/
import Mathlib

set_option maxRecDepth 4000

namespace LSA

/-! ### Small helpers shared by the embeddings -/

/-- Minimum of two rationals, written so that the kernel can evaluate it. -/
def qmin (a b : ℚ) : ℚ := if a ≤ b then a else b

/-- Maximum of two rationals, written so that the kernel can evaluate it. -/
def qmax (a b : ℚ) : ℚ := if a ≤ b then b else a

/-- Minimum of a list of rationals, with a default for the empty list.
Models `np.min(values) if len(values) > 0 else default`. -/
def minD (l : List ℚ) (d : ℚ) : ℚ :=
  match l with
  | [] => d
  | x :: xs => xs.foldl qmin x

/-- Pointwise single-cell update of a matrix, modelling `m[i, j] = v`. -/
def matUpdate {n : ℕ} {α : Type} [DecidableEq (Fin n)]
    (m : Fin n → Fin n → α) (i j : Fin n) (v : α) : Fin n → Fin n → α :=
  fun a b => if a = i ∧ b = j then v else m a b

/-- Row `i` of the matrix as a list (`cost_matrix[i, :]`). -/
def rowList {n : ℕ} (c : Fin n → Fin n → ℚ) (i : Fin n) : List ℚ :=
  (List.finRange n).map (fun j => c i j)

/-- Column `j` of the matrix as a list (`cost_matrix[:, j]`). -/
def colList {n : ℕ} (c : Fin n → Fin n → ℚ) (j : Fin n) : List ℚ :=
  (List.finRange n).map (fun i => c i j)

/-! ### METHOD 1: `calculate_basic_sensitivity` (src/sensitivity.py lines 140-181) -/

/-- Embedding of `calculate_basic_sensitivity`: for each cell, distance of the
value from the row minimum excluding column `j` and from the column minimum
excluding row `i` (`np.delete`), clamped at 0, and the smaller of the two. -/
def calculate_basic_sensitivity {n : ℕ} (c : Fin n → Fin n → ℚ) :
    Fin n → Fin n → ℚ := fun i j =>
  let current := c i j
  let rowValues := ((List.finRange n).filter (fun k => k ≠ j)).map (fun k => c i k)
  let colValues := ((List.finRange n).filter (fun k => k ≠ i)).map (fun k => c k j)
  let rowMin := minD rowValues current
  let colMin := minD colValues current
  let rowSensitivity := qmax 0 (current - rowMin)
  let colSensitivity := qmax 0 (current - colMin)
  qmin rowSensitivity colSensitivity

/-! ### AssignmentSolver: the `linear_sum_assignment` call (spec section 4.1) -/

/-- Total cost of the assignment sending row `k` to column `σ k`, modelling
`cost_matrix[row_ind, col_ind].sum()`. -/
def assignCost {n : ℕ} (c : Fin n → Fin n → ℚ) (σ : Equiv.Perm (Fin n)) : ℚ :=
  ∑ k : Fin n, c k (σ k)

/-- Fold selecting a cost-minimizing permutation from a list of candidates. -/
def bestPerm {n : ℕ} (c : Fin n → Fin n → ℚ) :
    List (Equiv.Perm (Fin n)) → Equiv.Perm (Fin n) → Equiv.Perm (Fin n)
  | [], acc => acc
  | σ :: rest, acc =>
      bestPerm c rest (if assignCost c σ < assignCost c acc then σ else acc)

/-- Modelled from the spec: `scipy.optimize.linear_sum_assignment` is library
code not present in src/.  The spec's contract "Output is an Assignment
minimizing total cost over all bijections row→column" is modelled as exact
minimization over all permutations of `Fin n`. -/
def linear_sum_assignment {n : ℕ} (c : Fin n → Fin n → ℚ) : Equiv.Perm (Fin n) :=
  bestPerm c (permsOfList (List.finRange n)) 1

/-- `row_ind` as returned by the solver: row indices in increasing order. -/
def row_ind (n : ℕ) : List (Fin n) := List.finRange n

/-- `col_ind` as returned by the solver: the column assigned to each row, in
row order. -/
def col_ind {n : ℕ} (c : Fin n → Fin n → ℚ) : List (Fin n) :=
  (List.finRange n).map (linear_sum_assignment c)

/-! ### METHOD 2: `calculate_dual_based_sensitivity` (src/sensitivity.py lines 183-233) -/

/-- One pass over the assigned pairs in solver order, building the dual
vectors `u`, `v` exactly as the Python loop does: the pair whose row index is
0 sets `u[0] = 0` and `v[j] = c[0,j]`; every other pair sets
`u[i] = c[i,j] - v[j]` using the current value of `v`. -/
def dualPass {n : ℕ} (c : Fin n → Fin n → ℚ) (σ : Equiv.Perm (Fin n)) :
    List (Fin n) → ((Fin n → ℚ) × (Fin n → ℚ)) → ((Fin n → ℚ) × (Fin n → ℚ))
  | [], uv => uv
  | i :: rest, (u, v) =>
      if (i : ℕ) = 0 then
        dualPass c σ rest (Function.update u i 0, Function.update v (σ i) (c i (σ i)))
      else
        dualPass c σ rest (Function.update u i (c i (σ i) - v (σ i)), v)

/-- The dual vectors `(u, v)` stored in `self.dual_variables`. -/
def dualVariables {n : ℕ} (c : Fin n → Fin n → ℚ) : (Fin n → ℚ) × (Fin n → ℚ) :=
  dualPass c (linear_sum_assignment c) (List.finRange n) (fun _ => 0, fun _ => 0)

/-- Embedding of `calculate_dual_based_sensitivity`: reduced cost clamped
at 0. -/
def calculate_dual_based_sensitivity {n : ℕ} (c : Fin n → Fin n → ℚ) :
    Fin n → Fin n → ℚ := fun i j =>
  qmax 0 (c i j - (dualVariables c).1 i - (dualVariables c).2 j)

/-! ### METHOD 3: `auction_algorithm_sensitivity` (src/sensitivity.py lines 235-312) -/

/-- The mutable state of the auction loop.  `mat` is the cost matrix as read
by the loop (never written), `bids` is a ghost trace of the winning bids
`(person, best_obj, bid_increment)` in the order they were placed. -/
structure AuctionState (n : ℕ) where
  mat : Fin n → Fin n → ℚ
  prices : Fin n → ℚ
  assignment : Fin n → Option (Fin n)
  reverse : Fin n → Option (Fin n)
  sens : Fin n → Fin n → ℚ
  bids : List (Fin n × Fin n × ℚ)

/-- First index attaining the maximum of `f` (`np.argmax`): scan the indices,
replacing the accumulator only on a strictly larger value. -/
def argmaxFrom {n : ℕ} (f : Fin n → ℚ) : List (Fin n) → Fin n → Fin n
  | [], acc => acc
  | j :: rest, acc => argmaxFrom f rest (if f acc < f j then j else acc)

/-- One iteration of the auction loop.  When no person is unassigned the
state is returned unchanged (the Python `break`).  `secondVal` is the entry of
the ascending sort at position `n - 2`, which is `np.partition(benefits,-2)[-2]`
for `n ≥ 2` and `benefits[0]` for `n = 1` (the Python `else` branch, since
`1 - 2 = 0` in `ℕ`). -/
def auctionStep {n : ℕ} (eps : ℚ) (s : AuctionState n) : AuctionState n :=
  match (List.finRange n).find? (fun i => (s.assignment i).isNone) with
  | none => s
  | some person =>
      let benefits : Fin n → ℚ := fun j => -(s.mat person j + s.prices j)
      let z : Fin n := ⟨0, person.pos⟩
      let best := argmaxFrom benefits (List.finRange n) z
      let sortedB := List.insertionSort (fun a b => a ≤ b) (List.ofFn benefits)
      let secondVal := sortedB.getD (n - 2) (benefits best)
      let inc := benefits best - secondVal + eps
      let a1 := match s.reverse best with
        | some old => Function.update s.assignment old none
        | none => s.assignment
      { mat := s.mat
        prices := Function.update s.prices best (s.prices best + inc)
        assignment := Function.update a1 person (some best)
        reverse := Function.update s.reverse best (some person)
        sens := matUpdate s.sens person best inc
        bids := s.bids ++ [(person, best, inc)] }

/-- Initial auction state: all prices 0, nobody assigned, sensitivity 0. -/
def auctionInit {n : ℕ} (c : Fin n → Fin n → ℚ) : AuctionState n :=
  ⟨c, fun _ => 0, fun _ => none, fun _ => none, fun _ _ => 0, []⟩

/-- The auction loop, capped at `n * n` iterations (`max_iterations = n * n`). -/
def auctionRun {n : ℕ} (c : Fin n → Fin n → ℚ) (eps : ℚ) : AuctionState n :=
  (auctionStep eps)^[n * n] (auctionInit c)

/-- Embedding of `auction_algorithm_sensitivity` (default `eps = 1.0`):
the sensitivity matrix left behind by the auction loop. -/
def auction_algorithm_sensitivity {n : ℕ} (c : Fin n → Fin n → ℚ) (eps : ℚ) :
    Fin n → Fin n → ℚ :=
  (auctionRun c eps).sens

/-- Mutual consistency of the `assignment` and `reverse_assignment` arrays. -/
def Consistent {n : ℕ} (s : AuctionState n) : Prop :=
  ∀ i j, s.assignment i = some j ↔ s.reverse j = some i

/-- Replay of one recorded bid onto a sensitivity matrix:
`sensitivity[row, best] = bidIncrement`. -/
def bidUpd {n : ℕ} (m : Fin n → Fin n → ℚ) (b : Fin n × Fin n × ℚ) :
    Fin n → Fin n → ℚ :=
  matUpdate m b.1 b.2.1 b.2.2

/-- Replay of a whole bid trace starting from the all-zero matrix. -/
def applyBids {n : ℕ} (l : List (Fin n × Fin n × ℚ)) : Fin n → Fin n → ℚ :=
  l.foldl bidUpd (fun _ _ => 0)

/-- The increment of the last bid in the trace that targeted cell `(i, j)`,
if any bid did. -/
def lastBidVal {n : ℕ} (l : List (Fin n × Fin n × ℚ)) (i j : Fin n) : Option ℚ :=
  l.foldl (fun acc b => if b.1 = i ∧ b.2.1 = j then some b.2.2 else acc) none

/-! ### METHOD 4: `geometric_bounds_sensitivity` (src/sensitivity.py lines 314-383) -/

/-- First index of `v` in `l` (`np.where(sorted == v)[0][0]`). -/
def rankOf (l : List ℚ) (v : ℚ) : ℕ :=
  l.findIdx (fun x => x = v)

/-- Minimum of two extended values where `none` stands for `float('inf')`. -/
def minOptQ : Option ℚ → Option ℚ → Option ℚ
  | some a, some b => some (qmin a b)
  | some a, none => some a
  | none, some b => some b
  | none, none => none

/-- Embedding of `geometric_bounds_sensitivity`: sort each row and column,
locate the first occurrence of the current value, take the gap to the entry at
the next sorted position (`float('inf')`, modelled as `none`, when the first
occurrence is the last position), and output the minimum gap with fallback
`10.0` when both gaps are infinite. -/
def geometric_bounds_sensitivity {n : ℕ} (c : Fin n → Fin n → ℚ) :
    Fin n → Fin n → ℚ := fun i j =>
  let rowSorted := List.insertionSort (fun a b => a ≤ b) (rowList c i)
  let colSorted := List.insertionSort (fun a b => a ≤ b) (colList c j)
  let current := c i j
  let rowRank := rankOf rowSorted current
  let colRank := rankOf colSorted current
  let rowGap : Option ℚ :=
    if rowRank < rowSorted.length - 1 then
      some (rowSorted.getD (rowRank + 1) 0 - current)
    else none
  let colGap : Option ℚ :=
    if colRank < colSorted.length - 1 then
      some (colSorted.getD (colRank + 1) 0 - current)
    else none
  match minOptQ rowGap colGap with
  | some g => g
  | none => 10

/-! ### METHOD 5: `reduced_cost_sensitivity` (src/sensitivity.py lines 385-487) -/

/-- Embedding of `_find_min_cost_cycle`: minimum over all `alt_j ≠ exclude_j`
and all `alt_i ≠ exclude_i` (every row is in `row_ind`) of the absolute cycle
cost, with fallback `5.0` when no candidate exists. -/
def find_min_cost_cycle {n : ℕ} (c : Fin n → Fin n → ℚ) (σ : Equiv.Perm (Fin n))
    (i j : Fin n) : ℚ :=
  let candidates :=
    ((List.finRange n).filter (fun aj => aj ≠ j)).flatMap (fun aj =>
      ((List.finRange n).filter (fun ai => ai ≠ i)).map (fun ai =>
        |c i aj + c ai j - c i j - c ai (σ ai)|))
  minD candidates 5

/-- Embedding of `reduced_cost_sensitivity`: potentials `u = 0`,
`v[j] = cost[i,j] - u[i]` for the row `i` assigned to column `j`; assigned
cells get the approximate alternating-cycle value, unassigned cells the
clamped reduced cost. -/
def reduced_cost_sensitivity {n : ℕ} (c : Fin n → Fin n → ℚ) :
    Fin n → Fin n → ℚ := fun i j =>
  let σ := linear_sum_assignment c
  let u : Fin n → ℚ := fun _ => 0
  let v : Fin n → ℚ := fun jj => c (σ.symm jj) jj - u (σ.symm jj)
  if j = σ i then find_min_cost_cycle c σ i j
  else qmax 0 (c i j - u i - v j)

/-! ### METHOD 6: `perturbation_theory_sensitivity` (src/sensitivity.py lines 489-572) -/

/-- `np.trace`: sum of the diagonal entries. -/
def traceM {n : ℕ} (m : Fin n → Fin n → ℝ) : ℝ := ∑ k, m k k

/-- The difference `pert_matrix - cost_matrix` for the perturbation at cell
`(i, j)` of size `δ`. -/
def diffMatrix {n : ℕ} (c : Fin n → Fin n → ℝ) (i j : Fin n) (δ : ℝ) :
    Fin n → Fin n → ℝ := fun a b =>
  matUpdate c i j (c i j + δ) a b - c a b

/-- `np.linalg.norm(·, 'fro')`: square root of the sum of squared entries. -/
noncomputable def frobNorm {n : ℕ} (m : Fin n → Fin n → ℝ) : ℝ :=
  Real.sqrt (∑ a, ∑ b, m a b ^ 2)

/-- `np.linalg.norm(·, 2)`: the spectral norm, i.e. the largest value of
`‖m x‖₂` over vectors `x` with `‖x‖₂ ≤ 1`. -/
noncomputable def specNorm {n : ℕ} (m : Fin n → Fin n → ℝ) : ℝ :=
  sSup {r : ℝ | ∃ x : Fin n → ℝ, (∑ k, x k ^ 2) ≤ 1 ∧
    r = Real.sqrt (∑ a, (∑ b, m a b * x b) ^ 2)}

/-- Embedding of `perturbation_theory_sensitivity`.  The condition-number
computation (`np.linalg.cond` inside `try/except`) is numerical library code
modelled as a fallible oracle `cond`; the `except` branch substituting 0 fires
exactly when the oracle fails on either matrix. -/
noncomputable def perturbation_theory_sensitivity {n : ℕ}
    (cond : (Fin n → Fin n → ℝ) → Option ℝ) (c : Fin n → Fin n → ℝ) :
    Fin n → Fin n → ℝ := fun i j =>
  let delta : ℝ := 1 / 100
  let pert := matUpdate c i j (c i j + delta)
  let trace_sensitivity := |traceM pert - traceM c| / delta
  let frobenius_sensitivity := frobNorm (diffMatrix c i j delta) / delta
  let spectral_sensitivity := specNorm (diffMatrix c i j delta) / delta
  let cond_sensitivity :=
    match cond c, cond pert with
    | some origCond, some pertCond => |pertCond - origCond| / delta
    | _, _ => 0
  (0.3 * frobenius_sensitivity + 0.3 * spectral_sensitivity +
    0.2 * trace_sensitivity + 0.2 * cond_sensitivity) * 100

/-! ### `analyze_sensitivity` input validation (src/sensitivity.py lines 574-603) -/

/-- A floating-point cell value: a finite real (modelled as `ℚ`), or one of
the non-finite values NaN and ±infinity. -/
inductive FVal where
  | val (q : ℚ) : FVal
  | nan : FVal
  | posInf : FVal
  | negInf : FVal
deriving DecidableEq

/-- Finiteness test on a cell value. -/
def FVal.isFiniteVal : FVal → Bool
  | .val _ => true
  | _ => false

/-- The rational carried by a finite cell value (0 otherwise). -/
def FVal.toQ : FVal → ℚ
  | .val q => q
  | _ => 0

/-- The error raised when the cost matrix is rejected (spec's
`InvalidMatrixError` / `InvalidInputError`). -/
inductive InvalidInputError where
  | notSquare
  | nonFinite
  | dimZero
deriving DecidableEq

/-- Every row has length equal to the number of rows. -/
def isSquareMat (m : List (List FVal)) : Bool :=
  m.all (fun r => r.length = m.length)

/-- Every entry is finite. -/
def allFiniteMat (m : List (List FVal)) : Bool :=
  m.all (fun r => r.all FVal.isFiniteVal)

/-- The validated matrix as a total function. -/
def toCost (m : List (List FVal)) : Fin m.length → Fin m.length → ℚ := fun i j =>
  ((m.get i).getD j.val (.val 0)).toQ

/-- Modelled from the spec: the input validation of the AssignmentSolver step
(`linear_sum_assignment` is scipy code not in src/): `InvalidMatrixError` for a
"non-square matrix, non-finite entries (NaN/∞), or dimension 0", raised before
any estimator runs.  On success it returns the solver output
`(row_ind, col_ind, total cost)`. -/
def solveValidated (m : List (List FVal)) :
    Except InvalidInputError (List (Fin m.length) × List (Fin m.length) × ℚ) :=
  if m.length = 0 then .error .dimZero
  else if ¬ isSquareMat m then .error .notSquare
  else if ¬ allFiniteMat m then .error .nonFinite
  else
    let c := toCost m
    .ok (row_ind m.length, col_ind c, assignCost c (linear_sum_assignment c))

/-- The analysis driver `analyze_sensitivity`: run the AssignmentSolver step
first; only if it succeeds is the selected estimator (any function of the
validated matrix) applied. -/
def analyze_sensitivity {α : Type} (est : (k : ℕ) → (Fin k → Fin k → ℚ) → α)
    (m : List (List FVal)) : Except InvalidInputError α :=
  match solveValidated m with
  | .error e => .error e
  | .ok _ => .ok (est m.length (toCost m))

/-! ### State-passing forms of the estimators (frame property, spec section 3) -/

/-- The two arrays live during an estimator call: the input cost matrix and
the freshly allocated output (`np.zeros_like(cost_matrix)`). -/
structure EstState (n : ℕ) (α : Type) where
  inp : Fin n → Fin n → α
  out : Fin n → Fin n → α

/-- The per-cell loop `for i: for j: sensitivity[i, j] = f(cost_matrix, i, j)`
threading both arrays as explicit state: every write targets the output
matrix, and `f` reads the input matrix as it is at that iteration. -/
def cellLoop {n : ℕ} {α : Type} (f : (Fin n → Fin n → α) → Fin n → Fin n → α)
    (s : EstState n α) : EstState n α :=
  ((List.finRange n).flatMap (fun i => (List.finRange n).map (fun j => (i, j)))).foldl
    (fun t p => { t with out := matUpdate t.out p.1 p.2 (f t.inp p.1 p.2) }) s

/-- State-passing form of METHOD 1. -/
def basic_state {n : ℕ} (c : Fin n → Fin n → ℚ) : EstState n ℚ :=
  cellLoop (fun m i j => calculate_basic_sensitivity m i j) ⟨c, fun _ _ => 0⟩

/-- State-passing form of METHOD 2. -/
def dual_state {n : ℕ} (c : Fin n → Fin n → ℚ) : EstState n ℚ :=
  cellLoop (fun m i j => calculate_dual_based_sensitivity m i j) ⟨c, fun _ _ => 0⟩

/-- State-passing form of METHOD 4. -/
def geometric_state {n : ℕ} (c : Fin n → Fin n → ℚ) : EstState n ℚ :=
  cellLoop (fun m i j => geometric_bounds_sensitivity m i j) ⟨c, fun _ _ => 0⟩

/-- State-passing form of METHOD 5. -/
def reduced_state {n : ℕ} (c : Fin n → Fin n → ℚ) : EstState n ℚ :=
  cellLoop (fun m i j => reduced_cost_sensitivity m i j) ⟨c, fun _ _ => 0⟩

/-- State-passing form of METHOD 6 (the per-cell body clones the live input
into `pert_matrix` and writes only the clone and the output). -/
noncomputable def perturbation_state {n : ℕ}
    (cond : (Fin n → Fin n → ℝ) → Option ℝ) (c : Fin n → Fin n → ℝ) :
    EstState n ℝ :=
  cellLoop (fun m i j => perturbation_theory_sensitivity cond m i j) ⟨c, fun _ _ => 0⟩

/-! ### Norm computations for the perturbation estimator -/

/-! ### Concrete matrices used in counterexamples and witnesses -/

/-- The 2×2 matrix `[[0,5],[5,0]]` of spec scenario 2. -/
def swapMatrix : Fin 2 → Fin 2 → ℚ := ![![0, 5], ![5, 0]]

/-- A 3×3 matrix whose rows are all `[0, 0, 100]`: the two cheap columns
provoke a price war between the three bidders in the auction loop. -/
def priceWarMatrix : Fin 3 → Fin 3 → ℚ := fun _ j => if j.val = 2 then 100 else 0

/-- A 2×2 matrix on which the auction assigns everyone in two bids. -/
def smallMatrix : Fin 2 → Fin 2 → ℚ := ![![0, 1], ![1, 0]]

/-! ### Supporting lemmas -/

theorem qmin_eq (a b : ℚ) : qmin a b = min a b := by
  simp [qmin, min_def]

theorem qmax_eq (a b : ℚ) : qmax a b = max a b := by
  rcases le_or_lt a b with h | h
  · rw [qmax, if_pos h, max_eq_right h]
  · rw [qmax, if_neg h.not_le, max_eq_left h.le]

theorem bestPerm_le_acc {n : ℕ} (c : Fin n → Fin n → ℚ) :
    ∀ (l : List (Equiv.Perm (Fin n))) (acc : Equiv.Perm (Fin n)),
      assignCost c (bestPerm c l acc) ≤ assignCost c acc
  | [], _ => le_refl _
  | σ :: rest, acc => by
    simp only [bestPerm]
    split
    next h => exact le_trans (bestPerm_le_acc c rest _) (le_of_lt h)
    next _ => exact bestPerm_le_acc c rest acc

theorem bestPerm_le_mem {n : ℕ} (c : Fin n → Fin n → ℚ) :
    ∀ (l : List (Equiv.Perm (Fin n))) (acc σ : Equiv.Perm (Fin n)), σ ∈ l →
      assignCost c (bestPerm c l acc) ≤ assignCost c σ
  | [], _, _, h => absurd h (List.not_mem_nil _)
  | τ :: rest, acc, σ, h => by
    rcases List.mem_cons.mp h with rfl | hmem
    · simp only [bestPerm]
      rcases lt_or_le (assignCost c σ) (assignCost c acc) with hlt | hle
      · rw [if_pos hlt]
        exact bestPerm_le_acc c rest σ
      · rw [if_neg (not_lt.mpr hle)]
        exact le_trans (bestPerm_le_acc c rest acc) hle
    · simp only [bestPerm]
      exact bestPerm_le_mem c rest _ σ hmem

theorem dualPass_not_mem {n : ℕ} (c : Fin n → Fin n → ℚ) (σ : Equiv.Perm (Fin n)) :
    ∀ (l : List (Fin n)) (u v : Fin n → ℚ) (a : Fin n), a ∉ l →
      (dualPass c σ l (u, v)).1 a = u a ∧ (dualPass c σ l (u, v)).2 (σ a) = v (σ a)
  | [], _, _, _, _ => ⟨rfl, rfl⟩
  | i :: rest, u, v, a, h => by
    have hai : a ≠ i := fun hEq => h (hEq ▸ List.mem_cons_self i rest)
    have hrest : a ∉ rest := fun hm => h (List.mem_cons_of_mem i hm)
    simp only [dualPass]
    split
    · have := dualPass_not_mem c σ rest
        (Function.update u i 0) (Function.update v (σ i) (c i (σ i))) a hrest
      rw [this.1, this.2, Function.update_noteq hai,
        Function.update_noteq (fun hc => hai (σ.injective hc))]
      exact ⟨rfl, rfl⟩
    · have := dualPass_not_mem c σ rest
        (Function.update u i (c i (σ i) - v (σ i))) v a hrest
      rw [this.1, this.2, Function.update_noteq hai]
      exact ⟨rfl, rfl⟩

theorem dualPass_slack {n : ℕ} (c : Fin n → Fin n → ℚ) (σ : Equiv.Perm (Fin n)) :
    ∀ (l : List (Fin n)) (u v : Fin n → ℚ), l.Nodup → ∀ a ∈ l,
      (dualPass c σ l (u, v)).1 a + (dualPass c σ l (u, v)).2 (σ a) = c a (σ a)
  | [], _, _, _, a, ha => absurd ha (List.not_mem_nil a)
  | i :: rest, u, v, hnd, a, ha => by
    have hnotmem : i ∉ rest := (List.nodup_cons.mp hnd).1
    have hndrest : rest.Nodup := (List.nodup_cons.mp hnd).2
    rcases List.mem_cons.mp ha with rfl | hmem
    · simp only [dualPass]
      split
      · have := dualPass_not_mem c σ rest
          (Function.update u a 0) (Function.update v (σ a) (c a (σ a))) a hnotmem
        rw [this.1, this.2, Function.update_same, Function.update_same, zero_add]
      · have := dualPass_not_mem c σ rest
          (Function.update u a (c a (σ a) - v (σ a))) v a hnotmem
        rw [this.1, this.2, Function.update_same]
        ring
    · simp only [dualPass]
      split
      · exact dualPass_slack c σ rest _ _ hndrest a hmem
      · exact dualPass_slack c σ rest _ _ hndrest a hmem

theorem consistent_init {n : ℕ} (c : Fin n → Fin n → ℚ) :
    Consistent (auctionInit c) := by
  intro i j
  simp [auctionInit]

theorem consistent_step {n : ℕ} (eps : ℚ) (s : AuctionState n)
    (h : Consistent s) : Consistent (auctionStep eps s) := by
  unfold auctionStep
  cases hfind : (List.finRange n).find? (fun i => (s.assignment i).isNone) with
  | none => exact h
  | some person =>
    have hp : s.assignment person = none := by
      have := List.find?_some hfind
      simpa [Option.isNone_iff_eq_none] using this
    simp only
    set benefits : Fin n → ℚ := fun j => -(s.mat person j + s.prices j) with hb
    set best := argmaxFrom benefits (List.finRange n) ⟨0, person.pos⟩ with hbest
    cases hrev : s.reverse best with
    | some old =>
      have hold : s.assignment old = some best := (h old best).mpr hrev
      have hop : old ≠ person := by
        intro hEq
        rw [hEq, hp] at hold
        exact Option.noConfusion hold
      intro i j
      simp only [hrev]
      by_cases hip : i = person
      · subst hip
        by_cases hjb : j = best
        · subst hjb
          simp [Function.update_same]
        · constructor
          · intro hx
            rw [Function.update_same] at hx
            exact absurd (Option.some.inj hx).symm hjb
          · intro hx
            rw [Function.update_noteq (Ne.symm (fun hEq => hjb hEq.symm))] at hx
            exact absurd ((h i j).mpr hx) (by rw [hp]; exact fun hc => Option.noConfusion hc)
      · by_cases hio : i = old
        · subst hio
          constructor
          · intro hx
            rw [Function.update_noteq hip, Function.update_same] at hx
            exact Option.noConfusion hx
          · intro hx
            by_cases hjb : j = best
            · subst hjb
              rw [Function.update_same] at hx
              exact absurd (Option.some.inj hx).symm hip
            · rw [Function.update_noteq (Ne.symm (fun hEq => hjb hEq.symm))] at hx
              have := (h i j).mpr hx
              rw [hold] at this
              exact absurd (Option.some.inj this) (fun hEq => hjb hEq.symm)
        · by_cases hjb : j = best
          · subst hjb
            constructor
            · intro hx
              rw [Function.update_noteq hip, Function.update_noteq hio] at hx
              have := (h i best).mp hx
              rw [hrev] at this
              exact absurd (Option.some.inj this).symm hio
            · intro hx
              rw [Function.update_same] at hx
              exact absurd (Option.some.inj hx).symm hip
          · rw [Function.update_noteq hip, Function.update_noteq hio,
              Function.update_noteq (Ne.symm (fun hEq => hjb hEq.symm))]
            exact h i j
    | none =>
      intro i j
      simp only [hrev]
      by_cases hip : i = person
      · subst hip
        by_cases hjb : j = best
        · subst hjb
          simp [Function.update_same]
        · constructor
          · intro hx
            rw [Function.update_same] at hx
            exact absurd (Option.some.inj hx).symm hjb
          · intro hx
            rw [Function.update_noteq (Ne.symm (fun hEq => hjb hEq.symm))] at hx
            exact absurd ((h i j).mpr hx) (by rw [hp]; exact fun hc => Option.noConfusion hc)
      · by_cases hjb : j = best
        · subst hjb
          constructor
          · intro hx
            rw [Function.update_noteq hip] at hx
            have := (h i best).mp hx
            rw [hrev] at this
            exact Option.noConfusion this
          · intro hx
            rw [Function.update_same] at hx
            exact absurd (Option.some.inj hx).symm hip
        · rw [Function.update_noteq hip,
            Function.update_noteq (Ne.symm (fun hEq => hjb hEq.symm))]
          exact h i j

theorem consistent_iterate {n : ℕ} (eps : ℚ) (c : Fin n → Fin n → ℚ) :
    ∀ k, Consistent ((auctionStep eps)^[k] (auctionInit c))
  | 0 => consistent_init c
  | k + 1 => by
    rw [Function.iterate_succ_apply']
    exact consistent_step eps _ (consistent_iterate eps c k)

theorem sens_eq_applyBids {n : ℕ} (eps : ℚ) (c : Fin n → Fin n → ℚ) :
    ∀ k, ((auctionStep eps)^[k] (auctionInit c)).sens =
      applyBids ((auctionStep eps)^[k] (auctionInit c)).bids
  | 0 => rfl
  | k + 1 => by
    rw [Function.iterate_succ_apply']
    generalize hs : (auctionStep eps)^[k] (auctionInit c) = s at *
    have ih : s.sens = applyBids s.bids := by
      rw [← hs]; exact sens_eq_applyBids eps c k
    unfold auctionStep
    cases hfind : (List.finRange n).find? (fun i => (s.assignment i).isNone) with
    | none => exact ih
    | some person =>
      simp only [applyBids, List.foldl_append, List.foldl_cons, List.foldl_nil]
      rw [← applyBids, ← ih]
      rfl

theorem foldl_lastStep_isSome {n : ℕ} (i j : Fin n) :
    ∀ (l : List (Fin n × Fin n × ℚ)) (v : ℚ),
      ∃ w, l.foldl (fun acc b => if b.1 = i ∧ b.2.1 = j then some b.2.2 else acc)
        (some v) = some w
  | [], v => ⟨v, rfl⟩
  | b :: rest, v => by
    simp only [List.foldl_cons]
    split
    · exact foldl_lastStep_isSome i j rest _
    · exact foldl_lastStep_isSome i j rest v

theorem foldl_bidUpd_getD {n : ℕ} (i j : Fin n) :
    ∀ (l : List (Fin n × Fin n × ℚ)) (m : Fin n → Fin n → ℚ) (o : Option ℚ),
      (o = none ∨ o = some (m i j)) →
      (l.foldl bidUpd m) i j =
        (l.foldl (fun acc b => if b.1 = i ∧ b.2.1 = j then some b.2.2 else acc) o).getD
          (m i j)
  | [], m, o, ho => by
    rcases ho with rfl | rfl <;> simp [List.foldl_nil]
  | b :: rest, m, o, ho => by
    simp only [List.foldl_cons]
    by_cases hb : b.1 = i ∧ b.2.1 = j
    · have hm : bidUpd m b i j = b.2.2 := by
        simp [bidUpd, matUpdate, hb.1.symm, hb.2.symm]
      have := foldl_bidUpd_getD i j rest (bidUpd m b) (some b.2.2)
        (Or.inr (by rw [hm]))
      rw [if_pos hb] at *
      rw [this]
      obtain ⟨w, hw⟩ := foldl_lastStep_isSome i j rest b.2.2
      rw [hw]
      simp
    · have hm : bidUpd m b i j = m i j := by
        have : ¬(i = b.1 ∧ j = b.2.1) := fun hc => hb ⟨hc.1.symm, hc.2.symm⟩
        simp [bidUpd, matUpdate, this]
      rw [if_neg hb]
      have := foldl_bidUpd_getD i j rest (bidUpd m b) o
        (by rcases ho with rfl | rfl
            · exact Or.inl rfl
            · exact Or.inr (by rw [hm]))
      rw [this, hm]

theorem lastBidVal_of_no_target {n : ℕ} (i j : Fin n) :
    ∀ (l : List (Fin n × Fin n × ℚ)), (∀ b ∈ l, ¬(b.1 = i ∧ b.2.1 = j)) →
      lastBidVal l i j = none
  | [], _ => rfl
  | b :: rest, h => by
    have hb := h b (List.mem_cons_self b rest)
    simp only [lastBidVal, List.foldl_cons, if_neg hb]
    exact lastBidVal_of_no_target i j rest (fun x hx => h x (List.mem_cons_of_mem b hx))

theorem cellLoop_inp {n : ℕ} {α : Type} (f : (Fin n → Fin n → α) → Fin n → Fin n → α)
    (s : EstState n α) : (cellLoop f s).inp = s.inp := by
  unfold cellLoop
  generalize (List.finRange n).flatMap
    (fun i => (List.finRange n).map (fun j => (i, j))) = l
  induction l generalizing s with
  | nil => rfl
  | cons p rest ih => exact ih _

theorem auctionIterate_mat {n : ℕ} (eps : ℚ) (c : Fin n → Fin n → ℚ) :
    ∀ k, ((auctionStep eps)^[k] (auctionInit c)).mat = c
  | 0 => rfl
  | k + 1 => by
    rw [Function.iterate_succ_apply']
    generalize hs : (auctionStep eps)^[k] (auctionInit c) = s at *
    have ih : s.mat = c := by rw [← hs]; exact auctionIterate_mat eps c k
    unfold auctionStep
    cases (List.finRange n).find? (fun i => (s.assignment i).isNone) with
    | none => exact ih
    | some person => exact ih

theorem diffMatrix_eq {n : ℕ} (c : Fin n → Fin n → ℝ) (i j : Fin n) (δ : ℝ) :
    diffMatrix c i j δ = fun a b => if a = i ∧ b = j then δ else 0 := by
  funext a b
  unfold diffMatrix matUpdate
  by_cases h : a = i ∧ b = j
  · obtain ⟨rfl, rfl⟩ := h
    rw [if_pos ⟨rfl, rfl⟩, if_pos ⟨rfl, rfl⟩]
    ring
  · rw [if_neg h, if_neg h]
    ring

theorem sum_sq_single_cell {n : ℕ} (i j : Fin n) (δ : ℝ) :
    (∑ a, ∑ b, (if a = i ∧ b = j then δ else 0) ^ 2) = δ ^ 2 := by
  rw [Finset.sum_eq_single i]
  · rw [Finset.sum_eq_single j]
    · simp
    · intro b _ hb
      simp [hb]
    · intro h
      exact absurd (Finset.mem_univ j) h
  · intro a _ ha
    apply Finset.sum_eq_zero
    intro b _
    simp [ha]
  · intro h
    exact absurd (Finset.mem_univ i) h

theorem frobNorm_diff {n : ℕ} (c : Fin n → Fin n → ℝ) (i j : Fin n) (δ : ℝ)
    (hδ : 0 ≤ δ) : frobNorm (diffMatrix c i j δ) = δ := by
  rw [diffMatrix_eq]
  unfold frobNorm
  rw [sum_sq_single_cell i j δ, Real.sqrt_sq hδ]

theorem mulVec_single_cell {n : ℕ} (i j : Fin n) (δ : ℝ) (x : Fin n → ℝ) (a : Fin n) :
    (∑ b, (if a = i ∧ b = j then δ else 0) * x b) = if a = i then δ * x j else 0 := by
  by_cases ha : a = i
  · subst ha
    rw [if_pos rfl, Finset.sum_eq_single j]
    · simp
    · intro b _ hb
      simp [hb]
    · intro h
      exact absurd (Finset.mem_univ j) h
  · rw [if_neg ha]
    apply Finset.sum_eq_zero
    intro b _
    simp [ha]

theorem sum_sq_mulVec_single {n : ℕ} (i j : Fin n) (δ : ℝ) (x : Fin n → ℝ) :
    (∑ a, (∑ b, (if a = i ∧ b = j then δ else 0) * x b) ^ 2) = (δ * x j) ^ 2 := by
  have h1 : (∑ a, (∑ b, (if a = i ∧ b = j then δ else 0) * x b) ^ 2) =
      ∑ a, (if a = i then δ * x j else 0) ^ 2 := by
    apply Finset.sum_congr rfl
    intro a _
    rw [mulVec_single_cell]
  rw [h1, Finset.sum_eq_single i]
  · simp
  · intro a _ ha
    simp [ha]
  · intro h
    exact absurd (Finset.mem_univ i) h

theorem specNorm_diff {n : ℕ} (c : Fin n → Fin n → ℝ) (i j : Fin n) (δ : ℝ)
    (hδ : 0 < δ) : specNorm (diffMatrix c i j δ) = δ := by
  rw [diffMatrix_eq]
  apply IsGreatest.csSup_eq
  constructor
  · refine ⟨fun k => if k = j then 1 else 0, ?_, ?_⟩
    · rw [Finset.sum_eq_single j]
      · simp
      · intro b _ hb
        simp [hb]
      · intro h
        exact absurd (Finset.mem_univ j) h
    · rw [sum_sq_mulVec_single, if_pos rfl, mul_one, Real.sqrt_sq hδ.le]
  · rintro r ⟨x, hx, rfl⟩
    rw [sum_sq_mulVec_single, Real.sqrt_sq_eq_abs, abs_mul]
    have hxj : |x j| ≤ 1 := by
      have h2 : x j ^ 2 ≤ 1 :=
        le_trans (Finset.single_le_sum (fun k _ => sq_nonneg (x k)) (Finset.mem_univ j)) hx
      nlinarith [sq_abs (x j), abs_nonneg (x j)]
    calc |δ| * |x j| ≤ |δ| * 1 := mul_le_mul_of_nonneg_left hxj (abs_nonneg δ)
      _ = δ := by rw [mul_one, abs_of_pos hδ]

theorem trace_pert {n : ℕ} (c : Fin n → Fin n → ℝ) (i j : Fin n) (δ : ℝ) :
    traceM (matUpdate c i j (c i j + δ)) - traceM c = if i = j then δ else 0 := by
  unfold traceM matUpdate
  rw [← Finset.sum_sub_distrib]
  by_cases hij : i = j
  · subst hij
    rw [if_pos rfl, Finset.sum_eq_single i]
    · simp
    · intro k _ hk
      simp [hk]
    · intro h
      exact absurd (Finset.mem_univ i) h
  · rw [if_neg hij]
    apply Finset.sum_eq_zero
    intro k _
    by_cases hk : k = i
    · subst hk
      simp [hij]
    · simp [hk]

/-- `List.finRange n` is sorted for `≤` on `Fin n`. -/
theorem sortedLeFinRange (n : ℕ) :
    List.Sorted (fun a b : Fin n => a ≤ b) (List.finRange n) :=
  (List.pairwise_lt_finRange n).imp (fun h => le_of_lt h)

/-- When every person is assigned, the auction step is the identity (the
Python `break`). -/
theorem auctionStep_fixed {n : ℕ} (eps : ℚ) (s : AuctionState n)
    (h : ∀ i, s.assignment i ≠ none) : auctionStep eps s = s := by
  unfold auctionStep
  have hnone : (List.finRange n).find? (fun i => (s.assignment i).isNone) = none := by
    rw [List.find?_eq_none]
    intro a _
    simp [Option.isNone_iff_eq_none, h a]
  rw [hnone]

/-- Claim C1: for every square cost matrix, the assignment returned by the
AssignmentSolver step is a bijection — sorting `row_ind` and `col_ind` gives
`0..n-1` — and its total cost is minimal among all row-to-column bijections.
(`linear_sum_assignment` is modelled from the spec, see its doc comment.) -/
theorem lsa_bijection_and_optimal : ∀ (n : ℕ) (c : Fin n → Fin n → ℚ),
    (List.insertionSort (fun a b => a ≤ b) (row_ind n) = List.finRange n ∧
     List.insertionSort (fun a b => a ≤ b) (col_ind c) = List.finRange n) ∧
    ∀ σ : Equiv.Perm (Fin n),
      assignCost c (linear_sum_assignment c) ≤ assignCost c σ := by
  intro n c
  refine ⟨⟨List.Sorted.insertionSort_eq (sortedLeFinRange n), ?_⟩, ?_⟩
  · exact List.eq_of_perm_of_sorted
      ((List.perm_insertionSort _ _).trans (Equiv.Perm.map_finRange_perm _))
      (List.sorted_insertionSort _ _) (sortedLeFinRange n)
  · intro σ
    exact bestPerm_le_mem c _ 1 σ (mem_permsOfList_of_mem (fun x _ => List.mem_finRange x))

/-- Claim C2 (counterexample): the spec says BasicBoundsEstimator maps
`[[0,5],[5,0]]` to `[[5,0],[0,5]]`; the code does not — e.g. cell `(0,0)`
holds value 0, which is already its row and column minimum, so its
sensitivity is 0, not 5. -/
theorem basic_swap_claim_false :
    ¬ (∀ i j : Fin 2, calculate_basic_sensitivity swapMatrix i j = ![![5, 0], ![0, 5]] i j) := by
  with_unfolding_all decide

/-- Claim C2 (amended): BasicBoundsEstimator maps `[[0,5],[5,0]]` to
`[[0,5],[5,0]]` — 0 on the diagonal cells (each is its row/column minimum)
and 5 off the diagonal. -/
theorem basic_swap_value :
    ∀ i j : Fin 2, calculate_basic_sensitivity swapMatrix i j = ![![0, 5], ![5, 0]] i j := by
  with_unfolding_all decide

/-- Claim C3 (counterexample): the spec says an all-equal matrix yields the
fallback 10.0 in every cell; in fact with all entries tied the first
occurrence of the value in the sorted row is at index 0 and the "next
position" gap is `5 - 5 = 0`, so every cell is 0, not 10. -/
theorem geometric_all_equal_claim_false :
    ¬ (∀ i j : Fin 3, geometric_bounds_sensitivity (fun _ _ => (5 : ℚ)) i j = 10) := by
  with_unfolding_all decide

/-- Claim C3 (amended): for `n ≥ 2`, a matrix with all entries equal yields 0
in every cell under GeometricBoundsEstimator: the gap is taken to the entry at
the next position of the ascending sort, which is 0 on ties; the fallback 10.0
requires the value to be strictly greater than every other entry of its row
and of its column. -/
theorem geometric_all_equal_zero : ∀ (n : ℕ), 2 ≤ n → ∀ (a : ℚ) (i j : Fin n),
    geometric_bounds_sensitivity (fun _ _ => a) i j = 0 := by
  intro n hn a i j
  obtain ⟨k, rfl⟩ : ∃ k, n = k + 2 := ⟨n - 2, by omega⟩
  have hrow : rowList (fun _ _ => a) i = List.replicate (k + 2) a := by
    simp [rowList]
  have hcol : colList (fun _ _ => a) j = List.replicate (k + 2) a := by
    simp [colList]
  have hsorted : List.insertionSort (fun x y : ℚ => x ≤ y) (List.replicate (k + 2) a) =
      List.replicate (k + 2) a :=
    List.perm_replicate.mp (List.perm_insertionSort _ _)
  have hrank : rankOf (List.replicate (k + 2) a) a = 0 := by
    simp [rankOf, List.replicate_succ, List.findIdx_cons]
  have hget : (List.replicate (k + 2) a).getD 1 0 = a := by
    simp [List.replicate_succ]
  unfold geometric_bounds_sensitivity
  simp only [hrow, hcol, hsorted, hrank, hget, List.length_replicate]
  simp [minOptQ, qmin]

/-- Witness for `geometric_all_equal_zero` at the spec's 3×3 all-5s matrix. -/
theorem geometric_all_equal_zero_witness :
    2 ≤ 3 ∧ geometric_bounds_sensitivity (fun _ _ => (5 : ℚ)) (0 : Fin 3) 0 = 0 :=
  ⟨by norm_num, geometric_all_equal_zero 3 (by norm_num) 5 0 0⟩

/-- Claim C5 (counterexample): on `priceWarMatrix` (rows all `[0,0,100]`,
`n = 3`, default `ε = 1`) the auction loop never reaches a state with no
unassigned row within its `n² = 9` iteration cap: the two cheap columns cause
a price war and row 0 is still unassigned when the cap is hit. -/
theorem auction_price_war_claim_false :
    ¬ (∃ k, k ≤ 9 ∧ ∀ i : Fin 3,
        ((auctionStep 1)^[k] (auctionInit priceWarMatrix)).assignment i ≠ none) := by
  rintro ⟨k, hk, hall⟩
  have hfix : auctionStep 1 ((auctionStep 1)^[k] (auctionInit priceWarMatrix)) =
      (auctionStep 1)^[k] (auctionInit priceWarMatrix) :=
    auctionStep_fixed 1 _ hall
  have h9 : auctionRun priceWarMatrix 1 =
      (auctionStep 1)^[k] (auctionInit priceWarMatrix) := by
    show (auctionStep 1)^[3 * 3] (auctionInit priceWarMatrix) = _
    rw [show 3 * 3 = (9 - k) + k from by omega, Function.iterate_add_apply]
    exact Function.iterate_fixed hfix (9 - k)
  have h0 : (auctionRun priceWarMatrix 1).assignment 0 = none := by
    with_unfolding_all decide
  rw [h9] at h0
  exact hall 0 h0

/-- Claim C5 (amended): at termination of the (at most `n²`-iteration) auction
loop the internal assignment arrays are a partial bijection — no two rows are
assigned to the same column — but for some matrices the iteration cap is
reached with a row still unassigned. -/
theorem auction_assignment_injective : ∀ (n : ℕ) (c : Fin n → Fin n → ℚ)
    (eps : ℚ) (i₁ i₂ j : Fin n), (auctionRun c eps).assignment i₁ = some j →
    (auctionRun c eps).assignment i₂ = some j → i₁ = i₂ := by
  intro n c eps i₁ i₂ j h1 h2
  have hc : Consistent (auctionRun c eps) := consistent_iterate eps c (n * n)
  have r2 := (hc i₂ j).mp h2
  rw [(hc i₁ j).mp h1] at r2
  exact Option.some.inj r2

/-- Witness for `auction_assignment_injective` on a concrete 2×2 run. -/
theorem auction_assignment_injective_witness :
    (auctionRun smallMatrix 1).assignment 0 = some 0 ∧ (0 : Fin 2) = 0 :=
  ⟨by with_unfolding_all decide,
   auction_assignment_injective 2 smallMatrix 1 0 0 0
     (by with_unfolding_all decide) (by with_unfolding_all decide)⟩

/-- Claim C6: every cell of the auction sensitivity matrix equals the
increment of the last winning bid that targeted it (0 if none did); in
particular a cell never targeted by a winning bid holds exactly 0. -/
theorem auction_sens_only_bid_targets : ∀ (n : ℕ) (c : Fin n → Fin n → ℚ)
    (eps : ℚ) (i j : Fin n),
    auction_algorithm_sensitivity c eps i j =
      (lastBidVal (auctionRun c eps).bids i j).getD 0 ∧
    ((∀ b ∈ (auctionRun c eps).bids, ¬(b.1 = i ∧ b.2.1 = j)) →
      auction_algorithm_sensitivity c eps i j = 0) := by
  intro n c eps i j
  have hsens : (auctionRun c eps).sens = applyBids (auctionRun c eps).bids :=
    sens_eq_applyBids eps c (n * n)
  have hmain : auction_algorithm_sensitivity c eps i j =
      (lastBidVal (auctionRun c eps).bids i j).getD 0 := by
    show (auctionRun c eps).sens i j = _
    rw [hsens]
    have := foldl_bidUpd_getD i j (auctionRun c eps).bids (fun _ _ => 0) none (Or.inl rfl)
    simpa [applyBids, lastBidVal] using this
  refine ⟨hmain, fun h => ?_⟩
  rw [hmain, lastBidVal_of_no_target i j _ h]
  rfl

/-- Witness for `auction_sens_only_bid_targets`: in the 2×2 run the bids are
`(0,0,2)` and `(1,1,4)`, so the never-bid cell `(0,1)` holds 0. -/
theorem auction_sens_only_bid_targets_witness :
    (∀ b ∈ (auctionRun smallMatrix 1).bids, ¬(b.1 = 0 ∧ b.2.1 = 1)) ∧
    auction_algorithm_sensitivity smallMatrix 1 0 1 = 0 :=
  ⟨by with_unfolding_all decide,
   (auction_sens_only_bid_targets 2 smallMatrix 1 0 1).2
     (by with_unfolding_all decide)⟩

/-- Claim C4: after the dual construction, every assigned pair `(i, σ i)`
satisfies `|u[i] + v[σ i] - c[i, σ i]| < 1e-9` (in the exact-rational
embedding the identity holds exactly). -/
theorem dual_assigned_pairs_tight : ∀ (n : ℕ) (c : Fin n → Fin n → ℚ) (i : Fin n),
    |(dualVariables c).1 i + (dualVariables c).2 (linear_sum_assignment c i) -
      c i (linear_sum_assignment c i)| < 1 / 1000000000 := by
  intro n c i
  have h := dualPass_slack c (linear_sum_assignment c) (List.finRange n)
    (fun _ => 0) (fun _ => 0) (List.nodup_finRange n) i (List.mem_finRange i)
  have heq : (dualVariables c).1 i +
      (dualVariables c).2 (linear_sum_assignment c i) =
      c i (linear_sum_assignment c i) := h
  rw [heq, sub_self, abs_zero]
  norm_num

/-- Claim C8: when the input matrix is not square or has a non-finite entry,
the AssignmentSolver step fails with an `InvalidInputError` and the analysis
returns that error — no estimator runs and no sensitivity matrix is
produced. -/
theorem analyze_invalid_input_errors : ∀ {α : Type}
    (est : (k : ℕ) → (Fin k → Fin k → ℚ) → α) (m : List (List FVal)),
    (isSquareMat m = false ∨ allFiniteMat m = false) →
    ∃ e, analyze_sensitivity est m = Except.error e := by
  intro α est m h
  have hne : m.length ≠ 0 := by
    intro h0
    have hnil : m = [] := List.length_eq_zero.mp h0
    subst hnil
    rcases h with h | h <;> simp [isSquareMat, allFiniteMat] at h
  unfold analyze_sensitivity solveValidated
  rw [if_neg hne]
  by_cases hsq : isSquareMat m = true
  · have hfin : allFiniteMat m = false := by
      rcases h with h | h
      · rw [hsq] at h; exact absurd h (by simp)
      · exact h
    rw [if_neg (by simp [hsq]), if_pos (by simp [hfin])]
    exact ⟨.nonFinite, rfl⟩
  · rw [if_pos (by simpa using hsq)]
    exact ⟨.notSquare, rfl⟩

/-- Witness for `analyze_invalid_input_errors` at the 1×1 matrix `[[nan]]`. -/
theorem analyze_invalid_input_errors_witness :
    allFiniteMat [[FVal.nan]] = false ∧
    ∃ e, analyze_sensitivity (fun _ _ => (0 : ℕ)) [[FVal.nan]] = Except.error e :=
  ⟨rfl, analyze_invalid_input_errors (fun _ _ => (0 : ℕ)) [[FVal.nan]] (Or.inr rfl)⟩

/-- Claim C9: every estimator leaves its input cost matrix unchanged: in the
state-passing embeddings, where each write of the source targets the output
(or an auxiliary) array, the input component of the final state equals the
initial matrix for all six estimators. -/
theorem estimators_preserve_input : ∀ (n : ℕ) (c : Fin n → Fin n → ℚ) (eps : ℚ)
    (cond : (Fin n → Fin n → ℝ) → Option ℝ) (cr : Fin n → Fin n → ℝ),
    (basic_state c).inp = c ∧ (dual_state c).inp = c ∧
    (auctionRun c eps).mat = c ∧ (geometric_state c).inp = c ∧
    (reduced_state c).inp = c ∧ (perturbation_state cond cr).inp = cr := by
  intro n c eps cond cr
  exact ⟨cellLoop_inp _ _, cellLoop_inp _ _, auctionIterate_mat eps c (n * n),
    cellLoop_inp _ _, cellLoop_inp _ _, cellLoop_inp _ _⟩

/-- Claim C7: if the condition-number oracle fails on the original or on the
perturbed matrix, the condition term contributes 0: the estimator's value at
that cell is the same as with an always-failing oracle, and the estimator
still returns a value for every cell. -/
theorem cond_failure_contributes_zero : ∀ (n : ℕ)
    (cond : (Fin n → Fin n → ℝ) → Option ℝ) (c : Fin n → Fin n → ℝ) (i j : Fin n),
    (cond c = none ∨ cond (matUpdate c i j (c i j + 1 / 100)) = none) →
    perturbation_theory_sensitivity cond c i j =
      perturbation_theory_sensitivity (fun _ => none) c i j := by
  intro n cond c i j h
  simp only [perturbation_theory_sensitivity]
  rcases h with h | h
  · rw [h]
  · rw [h]
    cases cond c <;> rfl

/-- Witness for `cond_failure_contributes_zero` at the 1×1 zero matrix with
the failing oracle. -/
theorem cond_failure_contributes_zero_witness :
    ((fun _ : Fin 1 → Fin 1 → ℝ => (none : Option ℝ)) (fun _ _ => 0) = none) ∧
    perturbation_theory_sensitivity (fun _ => (none : Option ℝ))
        (fun _ _ : Fin 1 => (0 : ℝ)) 0 0 =
      perturbation_theory_sensitivity (fun _ => (none : Option ℝ))
        (fun _ _ : Fin 1 => (0 : ℝ)) 0 0 :=
  ⟨rfl, cond_failure_contributes_zero 1 (fun _ => none)
    (fun _ _ : Fin 1 => (0 : ℝ)) 0 0 (Or.inl rfl)⟩

/-- Claim C10: the Frobenius-norm and spectral-norm sensitivity terms of the
perturbation estimator both equal 1 for every matrix and cell (the difference
matrix has the single entry `delta = 1/100`), and the trace term is 1 on the
diagonal and 0 off it. -/
theorem perturbation_norm_terms_constant : ∀ (n : ℕ) (c : Fin n → Fin n → ℝ)
    (i j : Fin n),
    frobNorm (diffMatrix c i j (1 / 100)) / (1 / 100) = 1 ∧
    specNorm (diffMatrix c i j (1 / 100)) / (1 / 100) = 1 ∧
    |traceM (matUpdate c i j (c i j + 1 / 100)) - traceM c| / (1 / 100) =
      if i = j then 1 else 0 := by
  intro n c i j
  have hδ : (0 : ℝ) < 1 / 100 := by norm_num
  refine ⟨?_, ?_, ?_⟩
  · rw [frobNorm_diff c i j _ hδ.le]
    norm_num
  · rw [specNorm_diff c i j _ hδ]
    norm_num
  · rw [trace_pert]
    by_cases hij : i = j
    · rw [if_pos hij, if_pos hij, abs_of_pos hδ]
      norm_num
    · rw [if_neg hij, if_neg hij]
      simp

end LSA
